import Mathlib

/-!
# fishlyn-pages: the gulp build description `lib/index.js`

A shallow embedding of the module's own logic: the configuration record and
its merge with `pages.config.js`, the arguments each task hands to the
transforms it wraps, the commit text of `gitCommit`, the callback protocol of
`gitPush`, and the task graphs built with `series` and `parallel`.
-/

namespace Pages

/-! ## JavaScript values -/

/-- A JavaScript value as far as this module inspects one. Floating point is
not computed here: a number is held as the two things the module asks of it,
whether it is falsy (`0`, `-0` or `NaN`) and the text JavaScript prints for
it, so `1.5` is `num false "1.5"` and `1e21` is `num false "1e+21"`. A
function is held as the text it prints as; it is never called here. An object
is the ordered list of its own enumerable data properties, read like an
object literal: a later entry for a key overrides an earlier one. An array is
the list of its elements. -/
inductive JSVal where
  | undefined : JSVal
  | null : JSVal
  | bool (b : Bool) : JSVal
  | num (zeroOrNaN : Bool) (text : String) : JSVal
  | str (s : String) : JSVal
  | fn (text : String) : JSVal
  | arr (items : List JSVal) : JSVal
  | obj (props : List (String × JSVal)) : JSVal
  deriving Inhabited

/-- The value of the last entry for key `k` in a property list. -/
def lookupProp (k : String) : List (String × JSVal) → Option JSVal
  | [] => none
  | (k', v) :: rest =>
    match lookupProp k rest with
    | some w => some w
    | none => if k' = k then some v else none

/-- The index-keyed properties `i, i+1, ...` of a sequence of values. -/
def indexProps : Nat → List JSVal → List (String × JSVal)
  | _, [] => []
  | i, v :: vs => (toString i, v) :: indexProps (i + 1) vs

/-- Own enumerable properties of `ToObject(v)`, as `Object.assign` copies
them: none for `undefined`, `null`, a number, a boolean or a function, the
indexed characters of a string, the indexed elements of an array, the
properties of an object. -/
def ownEnumerable : JSVal → List (String × JSVal)
  | .obj props => props
  | .arr items => indexProps 0 items
  | .str s => indexProps 0 (s.toList.map fun c => JSVal.str (String.singleton c))
  | _ => []

/-- `Object.assign(target, ...sources)` on a fresh target: every source that
is neither `null` nor `undefined` has its own enumerable properties assigned
onto the target, in order. -/
def objectAssign (target : List (String × JSVal)) : List JSVal → List (String × JSVal)
  | [] => target
  | s :: rest => objectAssign (target ++ ownEnumerable s) rest

/-- Property read `v.k` for a key other than `length` that no prototype
defines: a `TypeError` (`none`) on `undefined` and `null`, the own property of
an object, and `undefined` where there is none. -/
def getProp (v : JSVal) (k : String) : Option JSVal :=
  match v with
  | .undefined => none
  | .null => none
  | .obj props => some ((lookupProp k props).getD .undefined)
  | .arr items => some ((lookupProp k (indexProps 0 items)).getD .undefined)
  | .str s => some ((lookupProp k (ownEnumerable (.str s))).getD .undefined)
  | _ => some .undefined

/-- A chained property read `v.k1.k2...`. -/
def getPath (v : JSVal) : List String → Option JSVal
  | [] => some v
  | k :: ks => (getProp v k).bind fun w => getPath w ks

/-! ## Configuration -/

/-- The `build.paths` record of the built-in configuration. -/
def defaultPaths : JSVal :=
  .obj [("styles", .str "assets/styles/*.scss"),
        ("scripts", .str "assets/scripts/*.js"),
        ("pages", .str "*.html"),
        ("images", .str "assets/images/**"),
        ("fonts", .str "assets/fonts/**")]

/-- The `build` record of the built-in configuration. -/
def defaultBuild : JSVal :=
  .obj [("src", .str "src"), ("dist", .str "dist"), ("temp", .str "temp"),
        ("public", .str "public"), ("paths", defaultPaths)]

/-- The initial value of `config`. -/
def defaultConfig : JSVal := .obj [("build", defaultBuild)]

/-- The module's start-up block: `config` starts as the default; inside `try`
the override is required and `config` is reassigned to `Object.assign` of a
fresh empty object, `config` and `loadConfig`; the empty `catch` discards
whatever was thrown. `loaded` is the outcome of requiring `pages.config.js`
in the working directory: the exported value, or the thrown value. The result
is the outcome of the block: an uncaught throw, or the final `config`. -/
def startupConfig (loaded : Except JSVal JSVal) : Except JSVal JSVal :=
  let config := defaultConfig
  let tryBlock : Except JSVal JSVal := do
    let loadConfig ← loaded
    pure (JSVal.obj (objectAssign [] [config, loadConfig]))
  match tryBlock with
  | .ok config' => .ok config'
  | .error _ => .ok config

/-! ## What each task hands to the transforms it wraps -/

/-- The arguments of a `src` call: the glob, and the `cwd` and `base` options. -/
structure SrcCall where
  glob : JSVal
  cwd : JSVal
  base : JSVal

/-- The file-system side of one task run: the `src` call it opens, the extra
directories it lets a transform search, the directory given to `dest`, and
the paths given to `del`. -/
structure TaskCall where
  src : Option SrcCall
  searchPath : List JSVal
  dest : Option JSVal
  del : List JSVal

/-- Task `clean`: `del([config.build.temp, config.build.dist])`. `none` is
the `TypeError` of a property read on `undefined` or `null`. -/
def clean (config : JSVal) : Option TaskCall := do
  let temp ← getPath config ["build", "temp"]
  let dist ← getPath config ["build", "dist"]
  pure { src := none, searchPath := [], dest := none, del := [temp, dist] }

/-- Task `style`: the styles glob under `build.src`, written to `build.temp`. -/
def style (config : JSVal) : Option TaskCall := do
  let glob ← getPath config ["build", "paths", "styles"]
  let cwd ← getPath config ["build", "src"]
  let base ← getPath config ["build", "src"]
  let temp ← getPath config ["build", "temp"]
  pure { src := some { glob := glob, cwd := cwd, base := base }, searchPath := [],
         dest := some temp, del := [] }

/-- Task `script`: the scripts glob under `build.src`, written to `build.temp`. -/
def script (config : JSVal) : Option TaskCall := do
  let glob ← getPath config ["build", "paths", "scripts"]
  let cwd ← getPath config ["build", "src"]
  let base ← getPath config ["build", "src"]
  let temp ← getPath config ["build", "temp"]
  pure { src := some { glob := glob, cwd := cwd, base := base }, searchPath := [],
         dest := some temp, del := [] }

/-- Task `page`: the pages glob under `build.src`, written to `build.temp`. -/
def page (config : JSVal) : Option TaskCall := do
  let glob ← getPath config ["build", "paths", "pages"]
  let cwd ← getPath config ["build", "src"]
  let base ← getPath config ["build", "src"]
  let temp ← getPath config ["build", "temp"]
  pure { src := some { glob := glob, cwd := cwd, base := base }, searchPath := [],
         dest := some temp, del := [] }

/-- Task `image`: the images glob under `build.src`, written to `build.dist`. -/
def image (config : JSVal) : Option TaskCall := do
  let glob ← getPath config ["build", "paths", "images"]
  let cwd ← getPath config ["build", "src"]
  let base ← getPath config ["build", "src"]
  let dist ← getPath config ["build", "dist"]
  pure { src := some { glob := glob, cwd := cwd, base := base }, searchPath := [],
         dest := some dist, del := [] }

/-- Task `font`: the fonts glob under `build.src`, written to `build.dist`. -/
def font (config : JSVal) : Option TaskCall := do
  let glob ← getPath config ["build", "paths", "fonts"]
  let cwd ← getPath config ["build", "src"]
  let base ← getPath config ["build", "src"]
  let dist ← getPath config ["build", "dist"]
  pure { src := some { glob := glob, cwd := cwd, base := base }, searchPath := [],
         dest := some dist, del := [] }

/-- Task `extra`: everything under `build.public`, written to `build.dist`. -/
def extra (config : JSVal) : Option TaskCall := do
  let cwd ← getPath config ["build", "public"]
  let base ← getPath config ["build", "public"]
  let dist ← getPath config ["build", "dist"]
  pure { src := some { glob := .str "**", cwd := cwd, base := base }, searchPath := [],
         dest := some dist, del := [] }

/-- Task `useref`: the pages glob under `build.temp`, references searched in
`build.temp` and `.`, written to `build.dist`. -/
def useref (config : JSVal) : Option TaskCall := do
  let glob ← getPath config ["build", "paths", "pages"]
  let cwd ← getPath config ["build", "temp"]
  let base ← getPath config ["build", "temp"]
  let temp ← getPath config ["build", "temp"]
  let dist ← getPath config ["build", "dist"]
  pure { src := some { glob := glob, cwd := cwd, base := base },
         searchPath := [temp, .str "."], dest := some dist, del := [] }

/-- The paths a task run may create, change or remove: its `dest` directory
and its `del` paths. -/
def TaskCall.targets (c : TaskCall) : List JSVal :=
  c.dest.toList ++ c.del

/-! ## Commit text -/

/-- JavaScript truthiness. -/
def truthy : JSVal → Bool
  | .undefined => false
  | .null => false
  | .bool b => b
  | .num zeroOrNaN _ => !zeroOrNaN
  | .str s => decide (s ≠ "")
  | .fn _ => true
  | .arr _ => true
  | .obj _ => true

/-- Why a string conversion yields no string. -/
inductive ConvFailure where
  /-- The conversion throws `TypeError: Cannot convert object to primitive value`. -/
  | typeError : ConvFailure
  /-- The conversion calls a function held in the value; what that returns is
  outside this model. -/
  | callsFunction : ConvFailure
  deriving DecidableEq, Repr

mutual
/-- The string conversion a template literal applies to a value. A primitive
prints as its text. An array prints as its `join(',')`. An object is asked
for `toString` and then `valueOf`: without an own `toString` the inherited
one answers `[object Object]`; an own `toString` that is not callable is
passed over, and then `valueOf`, inherited (it returns the object itself) or
own and not callable, gives no primitive either, so the conversion throws. -/
def jsToString : JSVal → Except ConvFailure String
  | .undefined => .ok "undefined"
  | .null => .ok "null"
  | .bool true => .ok "true"
  | .bool false => .ok "false"
  | .num _ text => .ok text
  | .str s => .ok s
  | .fn text => .ok text
  | .arr items =>
    match itemTexts items with
    | .ok texts => .ok (",".intercalate texts)
    | .error e => .error e
  | .obj props =>
    match lookupProp "toString" props with
    | none => .ok "[object Object]"
    | some (.fn _) => .error .callsFunction
    | some _ =>
      match lookupProp "valueOf" props with
      | some (.fn _) => .error .callsFunction
      | _ => .error .typeError
/-- The texts that `join` puts between the separators, first element first:
the empty string for `undefined` and `null`, the string conversion for every
other element. -/
def itemTexts : List JSVal → Except ConvFailure (List String)
  | [] => .ok []
  | .undefined :: vs =>
    match itemTexts vs with
    | .ok texts => .ok ("" :: texts)
    | .error e => .error e
  | .null :: vs =>
    match itemTexts vs with
    | .ok texts => .ok ("" :: texts)
    | .error e => .error e
  | v :: vs =>
    match jsToString v with
    | .error e => .error e
    | .ok text =>
      match itemTexts vs with
      | .ok texts => .ok (text :: texts)
      | .error e => .error e
end

/-- The text of one array element inside `join`. -/
def itemText (v : JSVal) : Except ConvFailure String :=
  match v with
  | .undefined => .ok ""
  | .null => .ok ""
  | w => jsToString w

/-- Whether a value is a function. -/
def isFn : JSVal → Bool
  | .fn _ => true
  | _ => false

/-- The options `args` and `disableMessageRequirement` that `gitCommit`
hands to `plugins.git.commit`, together with the local `message`. -/
structure CommitCall where
  message : JSVal
  args : String
  disableMessageRequirement : Bool

/-- Task `gitCommit`: `message` is `argv.message || 'update'` and `args` is
the template literal around it; when the template literal throws, so does the
task, before `plugins.git.commit` is called. `argv` is the property list of
the object that `minimist` returned. -/
def gitCommit (argv : List (String × JSVal)) : Except ConvFailure CommitCall :=
  let argvMessage := (lookupProp "message" argv).getD .undefined
  let message := if truthy argvMessage then argvMessage else .str "update"
  match jsToString message with
  | .ok text =>
    .ok { message := message, args := "-m \"" ++ text ++ "\"",
          disableMessageRequirement := true }
  | .error e => .error e

/-! ## Push -/

/-- What `gitPush` does that the outside can observe, in order. -/
inductive PushStep where
  | push (remote branch : String) : PushStep
  | done (args : List JSVal) : PushStep
  | raise (err : JSVal) : PushStep

/-- The callback handed to `plugins.git.push`: `if (err) throw err`. -/
def pushCallback (err : JSVal) : Except JSVal Unit :=
  if truthy err then .error err else .ok ()

/-- Task `gitPush`: start the push with the callback, then call `done()`.
The callback runs when the push reports: `reported` is `none` as long as it
has not, and otherwise holds the callback's argument (`undefined` for a push
without error). -/
def gitPush (reported : Option JSVal) : List PushStep :=
  [.push "origin" "master", .done []] ++
    (match reported with
     | none => []
     | some err =>
       match pushCallback err with
       | .error e => [.raise e]
       | .ok () => [])

/-- The values thrown in a run. -/
def raised : List PushStep → List JSVal
  | [] => []
  | .raise e :: rest => e :: raised rest
  | _ :: rest => raised rest

/-- The argument lists of the calls of `done` in a run. -/
def doneCalls : List PushStep → List (List JSVal)
  | [] => []
  | .done args :: rest => args :: doneCalls rest
  | _ :: rest => doneCalls rest

/-- The pushes started in a run. -/
def pushes : List PushStep → List (String × String)
  | [] => []
  | .push r b :: rest => (r, b) :: pushes rest
  | _ :: rest => pushes rest

/-! ## Task graphs -/

/-- The tasks of the module. -/
inductive Task where
  | clean | lint | style | script | page | image | font | extra | useref
  | devServer | distServer | upload | gitAdd | gitCommit | gitPush
  deriving DecidableEq, Repr

/-- What a run shows of a task: it starts, and later it signals completion. -/
inductive Event where
  | start (t : Task) : Event
  | finish (t : Task) : Event
  deriving DecidableEq, Repr

/-- A composition of tasks with gulp's `series` and `parallel`. -/
inductive Graph where
  | task (t : Task) : Graph
  | series (gs : List Graph) : Graph
  | parallel (gs : List Graph) : Graph

/-- All merges of `x :: xs` with a second list, given the merges of `xs`. -/
def interleaveAux {α : Type} (x : α) (xs : List α) (mergeTail : List α → List (List α)) :
    List α → List (List α)
  | [] => [x :: xs]
  | y :: ys =>
    (mergeTail (y :: ys)).map (fun zs => x :: zs) ++
      (interleaveAux x xs mergeTail ys).map (fun zs => y :: zs)

/-- All merges of two event sequences that keep the order inside each. -/
def interleave {α : Type} : List α → List α → List (List α)
  | [], ys => [ys]
  | x :: xs, ys => interleaveAux x xs (interleave xs) ys

mutual
/-- The complete runs of a graph, after gulp's `series` and `parallel`: a
task starts and finishes; `series` runs its members one after the other, each
starting when the one before has finished; `parallel` runs its members side
by side and is finished when all of them are, so their events may merge in
any order. A run observed up to some moment is a prefix of a complete run. -/
def traces : Graph → List (List Event)
  | .task t => [[Event.start t, Event.finish t]]
  | .series gs => tracesSeries gs
  | .parallel gs => tracesParallel gs
/-- Runs of the members of a `series`. -/
def tracesSeries : List Graph → List (List Event)
  | [] => [[]]
  | g :: gs => (traces g).flatMap fun x => (tracesSeries gs).map fun y => x ++ y
/-- Runs of the members of a `parallel`. -/
def tracesParallel : List Graph → List (List Event)
  | [] => [[]]
  | g :: gs => (traces g).flatMap fun x => (tracesParallel gs).flatMap fun y => interleave x y
end

mutual
/-- The events of a graph in one fixed order. -/
def events : Graph → List Event
  | .task t => [Event.start t, Event.finish t]
  | .series gs => eventsAll gs
  | .parallel gs => eventsAll gs
/-- The events of a list of graphs. -/
def eventsAll : List Graph → List Event
  | [] => []
  | g :: gs => events g ++ eventsAll gs
end

mutual
/-- A sufficient check that `e1` comes before `e2` in every run of a graph:
they are a task's own start and finish, or ordered inside one member, or
`e1` belongs to an earlier and `e2` to a later member of a `series`. -/
def ordered (e1 e2 : Event) : Graph → Bool
  | .task t => decide (e1 = Event.start t) && decide (e2 = Event.finish t)
  | .series gs => orderedSeries e1 e2 gs
  | .parallel gs => orderedParallel e1 e2 gs
/-- The check for the members of a `series`. -/
def orderedSeries (e1 e2 : Event) : List Graph → Bool
  | [] => false
  | g :: gs =>
    ordered e1 e2 g || (decide (e1 ∈ events g) && decide (e2 ∈ eventsAll gs)) ||
      orderedSeries e1 e2 gs
/-- The check for the members of a `parallel`. -/
def orderedParallel (e1 e2 : Event) : List Graph → Bool
  | [] => false
  | g :: gs => ordered e1 e2 g || orderedParallel e1 e2 gs
end

/-- In run `tr`, task `b` starts only after task `a` has finished: whenever
`b` starts, the finish of `a` is among the events before. -/
def StartsOnlyAfter (a b : Task) (tr : List Event) : Prop :=
  ∀ pre post, tr = pre ++ Event.start b :: post → Event.finish a ∈ pre

/-- `const compile = parallel(style, script, page)`. -/
def compile : Graph := .parallel [.task .style, .task .script, .task .page]

/-- `const build = series(clean, parallel(series(compile, useref), image, font, extra))`. -/
def build : Graph :=
  .series [.task .clean,
    .parallel [.series [compile, .task .useref], .task .image, .task .font, .task .extra]]

/-- `const start = series(build, distServer)`. -/
def start : Graph := .series [build, .task .distServer]

/-- `const serve = series(compile, devServer)`. -/
def serve : Graph := .series [compile, .task .devServer]

/-- `const deploy = series(build, upload)`. -/
def deploy : Graph := .series [build, .task .upload]

/-- `const update = series(gitAdd, gitCommit, gitPush)`. -/
def update : Graph := .series [.task .gitAdd, .task .gitCommit, .task .gitPush]

/-- The eight tasks of `build`. -/
def buildTasks : List Task :=
  [.clean, .style, .script, .page, .useref, .image, .font, .extra]

/-! ## Configuration: theorems -/

theorem lookupProp_append (k : String) (a b : List (String × JSVal)) :
    lookupProp k (a ++ b) =
      (match lookupProp k b with
       | some v => some v
       | none => lookupProp k a) := by
  induction a with
  | nil =>
    simp only [List.nil_append, lookupProp]
    cases lookupProp k b <;> rfl
  | cons p a ih =>
    obtain ⟨k', v⟩ := p
    show (match lookupProp k (a ++ b) with
          | some w => some w
          | none => if k' = k then some v else none) = _
    rw [ih]
    cases lookupProp k b with
    | some w => rfl
    | none => rfl

theorem startupConfig_ok (override : JSVal) :
    startupConfig (.ok override) =
      .ok (.obj (ownEnumerable defaultConfig ++ ownEnumerable override)) := rfl

/-- C1, as stated, fails: the override that gives only `build.src` replaces the
whole default `build`; `build.dist`, `build.temp` and `build.paths` read as
`undefined` in the merged config, and reading a glob under `build.paths`
raises a `TypeError`. -/
theorem config_merge_drops_nested_defaults :
    ∃ cfg, startupConfig (.ok (.obj [("build", .obj [("src", .str "app")])])) = .ok cfg ∧
      getPath cfg ["build", "src"] = some (.str "app") ∧
      getPath cfg ["build", "dist"] = some .undefined ∧
      getPath cfg ["build", "dist"] ≠ some (.str "dist") ∧
      getPath cfg ["build", "temp"] = some .undefined ∧
      getPath cfg ["build", "paths"] = some .undefined ∧
      getPath cfg ["build", "paths", "styles"] = none :=
  ⟨_, rfl, rfl, rfl, by simp [getPath, getProp, lookupProp], rfl, rfl, rfl⟩

/-- C1, amended: the merge is over the top-level keys only. The merged config
always has the key `build`; a top-level key the override supplies takes the
override's value as a whole, and one it omits keeps its default value; so an
override without a `build` key leaves all nine defaults under `build`. -/
theorem config_merge_top_level (override : JSVal) (k : String) :
    ∃ props, startupConfig (.ok override) = .ok (.obj props) ∧
      (lookupProp "build" props).isSome = true ∧
      (∀ v, lookupProp k (ownEnumerable override) = some v → lookupProp k props = some v) ∧
      (lookupProp k (ownEnumerable override) = none →
        lookupProp k props = lookupProp k (ownEnumerable defaultConfig)) ∧
      (lookupProp "build" (ownEnumerable override) = none →
        getPath (.obj props) ["build", "src"] = some (.str "src") ∧
        getPath (.obj props) ["build", "dist"] = some (.str "dist") ∧
        getPath (.obj props) ["build", "temp"] = some (.str "temp") ∧
        getPath (.obj props) ["build", "public"] = some (.str "public") ∧
        getPath (.obj props) ["build", "paths", "styles"] = some (.str "assets/styles/*.scss") ∧
        getPath (.obj props) ["build", "paths", "scripts"] = some (.str "assets/scripts/*.js") ∧
        getPath (.obj props) ["build", "paths", "pages"] = some (.str "*.html") ∧
        getPath (.obj props) ["build", "paths", "images"] = some (.str "assets/images/**") ∧
        getPath (.obj props) ["build", "paths", "fonts"] = some (.str "assets/fonts/**")) := by
  refine ⟨_, startupConfig_ok override, ?_, ?_, ?_, ?_⟩
  · rw [lookupProp_append]
    cases lookupProp "build" (ownEnumerable override) <;> rfl
  · intro v hv
    rw [lookupProp_append, hv]
  · intro hn
    rw [lookupProp_append, hn]
  · intro hn
    have hb : getProp (.obj (ownEnumerable defaultConfig ++ ownEnumerable override)) "build" =
        some defaultBuild := by
      simp only [getProp]
      rw [lookupProp_append, hn]
      rfl
    simp only [getPath, hb, Option.some_bind]
    exact ⟨rfl, rfl, rfl, rfl, rfl, rfl, rfl, rfl, rfl⟩

theorem config_merge_top_level_witness :
    ∃ props,
      startupConfig (.ok (.obj [("data", .obj [("title", .str "Pages")])])) = .ok (.obj props) ∧
      lookupProp "data" props = some (.obj [("title", .str "Pages")]) ∧
      getPath (.obj props) ["build", "dist"] = some (.str "dist") ∧
      getPath (.obj props) ["build", "paths", "fonts"] = some (.str "assets/fonts/**") := by
  obtain ⟨props, h1, _, h3, _, h5⟩ :=
    config_merge_top_level (.obj [("data", .obj [("title", .str "Pages")])]) "data"
  have h := h5 rfl
  exact ⟨props, h1, h3 _ rfl, h.2.1, h.2.2.2.2.2.2.2.2⟩

/-- C2: whatever requiring `pages.config.js` throws, start-up raises nothing
and `config` is the built-in default, with its four directories and five
globs. -/
theorem failed_load_keeps_default (thrown : JSVal) :
    startupConfig (.error thrown) = .ok defaultConfig ∧
      getPath defaultConfig ["build", "src"] = some (.str "src") ∧
      getPath defaultConfig ["build", "dist"] = some (.str "dist") ∧
      getPath defaultConfig ["build", "temp"] = some (.str "temp") ∧
      getPath defaultConfig ["build", "public"] = some (.str "public") ∧
      getPath defaultConfig ["build", "paths", "styles"] = some (.str "assets/styles/*.scss") ∧
      getPath defaultConfig ["build", "paths", "scripts"] = some (.str "assets/scripts/*.js") ∧
      getPath defaultConfig ["build", "paths", "pages"] = some (.str "*.html") ∧
      getPath defaultConfig ["build", "paths", "images"] = some (.str "assets/images/**") ∧
      getPath defaultConfig ["build", "paths", "fonts"] = some (.str "assets/fonts/**") :=
  ⟨rfl, rfl, rfl, rfl, rfl, rfl, rfl, rfl, rfl, rfl⟩

/-! ## Task calls -/

/-- C9, as stated, fails: with an override whose `build.temp` is the same
directory as `build.src`, `clean` is handed `build.src` to delete and `style`
is handed it to write to. -/
theorem task_targets_can_hit_src :
    ∃ cfg,
      startupConfig (.ok (.obj [("build", .obj [("src", .str "app"), ("dist", .str "dist"),
        ("temp", .str "app"), ("public", .str "public"), ("paths", defaultPaths)])])) = .ok cfg ∧
      getPath cfg ["build", "src"] = some (.str "app") ∧
      (∃ call, clean cfg = some call ∧ call.del = [.str "app", .str "dist"]) ∧
      (∃ call, style cfg = some call ∧ call.dest = some (.str "app")) :=
  ⟨_, rfl, rfl, ⟨_, rfl, rfl⟩, ⟨_, rfl, rfl⟩⟩

/-- C9, amended: for a config whose nine `build` entries can be read, each of
the eight tasks makes exactly the stated `src`, `dest` and `del` calls; the
only paths handed to `dest` or `del` are `build.temp` and `build.dist`; so
`build.src` and `build.public` are never a target provided they differ from
`build.temp` and `build.dist`. -/
theorem task_calls (config src dist temp pub styles scripts pages images fonts : JSVal)
    (hsrc : getPath config ["build", "src"] = some src)
    (hdist : getPath config ["build", "dist"] = some dist)
    (htemp : getPath config ["build", "temp"] = some temp)
    (hpub : getPath config ["build", "public"] = some pub)
    (hstyles : getPath config ["build", "paths", "styles"] = some styles)
    (hscripts : getPath config ["build", "paths", "scripts"] = some scripts)
    (hpages : getPath config ["build", "paths", "pages"] = some pages)
    (himages : getPath config ["build", "paths", "images"] = some images)
    (hfonts : getPath config ["build", "paths", "fonts"] = some fonts) :
    clean config = some { src := none, searchPath := [], dest := none, del := [temp, dist] } ∧
    style config = some { src := some { glob := styles, cwd := src, base := src },
                          searchPath := [], dest := some temp, del := [] } ∧
    script config = some { src := some { glob := scripts, cwd := src, base := src },
                           searchPath := [], dest := some temp, del := [] } ∧
    page config = some { src := some { glob := pages, cwd := src, base := src },
                         searchPath := [], dest := some temp, del := [] } ∧
    useref config = some { src := some { glob := pages, cwd := temp, base := temp },
                           searchPath := [temp, .str "."], dest := some dist, del := [] } ∧
    image config = some { src := some { glob := images, cwd := src, base := src },
                          searchPath := [], dest := some dist, del := [] } ∧
    font config = some { src := some { glob := fonts, cwd := src, base := src },
                         searchPath := [], dest := some dist, del := [] } ∧
    extra config = some { src := some { glob := .str "**", cwd := pub, base := pub },
                          searchPath := [], dest := some dist, del := [] } ∧
    (∀ task, task ∈ [clean, style, script, page, useref, image, font, extra] →
      ∀ call, task config = some call →
        (∀ x, x ∈ call.targets → x = temp ∨ x = dist) ∧
        (src ≠ temp → src ≠ dist → src ∉ call.targets) ∧
        (pub ≠ temp → pub ≠ dist → pub ∉ call.targets)) := by
  have hclean : clean config =
      some { src := none, searchPath := [], dest := none, del := [temp, dist] } := by
    simp [clean, hdist, htemp]
  have hstyle : style config = some
      { src := some { glob := styles, cwd := src, base := src },
        searchPath := [], dest := some temp, del := [] } := by
    simp [style, hsrc, htemp, hstyles]
  have hscript : script config = some
      { src := some { glob := scripts, cwd := src, base := src },
        searchPath := [], dest := some temp, del := [] } := by
    simp [script, hsrc, htemp, hscripts]
  have hpage : page config = some
      { src := some { glob := pages, cwd := src, base := src },
        searchPath := [], dest := some temp, del := [] } := by
    simp [page, hsrc, htemp, hpages]
  have huseref : useref config = some
      { src := some { glob := pages, cwd := temp, base := temp },
        searchPath := [temp, .str "."], dest := some dist, del := [] } := by
    simp [useref, hdist, htemp, hpages]
  have himage : image config = some
      { src := some { glob := images, cwd := src, base := src },
        searchPath := [], dest := some dist, del := [] } := by
    simp [image, hsrc, hdist, himages]
  have hfont : font config = some
      { src := some { glob := fonts, cwd := src, base := src },
        searchPath := [], dest := some dist, del := [] } := by
    simp [font, hsrc, hdist, hfonts]
  have hextra : extra config = some
      { src := some { glob := .str "**", cwd := pub, base := pub },
        searchPath := [], dest := some dist, del := [] } := by
    simp [extra, hpub, hdist]
  refine ⟨hclean, hstyle, hscript, hpage, huseref, himage, hfont, hextra, ?_⟩
  intro task htask call hcall
  have key : ∀ x, x ∈ call.targets → x = temp ∨ x = dist := by
    simp only [List.mem_cons, List.mem_singleton, List.not_mem_nil, or_false] at htask
    rcases htask with rfl | rfl | rfl | rfl | rfl | rfl | rfl | rfl
    · rw [hclean] at hcall
      cases hcall
      intro x hx
      simpa [TaskCall.targets] using hx
    · rw [hstyle] at hcall
      cases hcall
      intro x hx
      exact Or.inl (by simpa [TaskCall.targets] using hx)
    · rw [hscript] at hcall
      cases hcall
      intro x hx
      exact Or.inl (by simpa [TaskCall.targets] using hx)
    · rw [hpage] at hcall
      cases hcall
      intro x hx
      exact Or.inl (by simpa [TaskCall.targets] using hx)
    · rw [huseref] at hcall
      cases hcall
      intro x hx
      exact Or.inr (by simpa [TaskCall.targets] using hx)
    · rw [himage] at hcall
      cases hcall
      intro x hx
      exact Or.inr (by simpa [TaskCall.targets] using hx)
    · rw [hfont] at hcall
      cases hcall
      intro x hx
      exact Or.inr (by simpa [TaskCall.targets] using hx)
    · rw [hextra] at hcall
      cases hcall
      intro x hx
      exact Or.inr (by simpa [TaskCall.targets] using hx)
  refine ⟨key, ?_, ?_⟩
  · intro h1 h2 hm
    rcases key _ hm with h | h
    · exact h1 h
    · exact h2 h
  · intro h1 h2 hm
    rcases key _ hm with h | h
    · exact h1 h
    · exact h2 h

theorem task_calls_witness :
    getPath defaultConfig ["build", "src"] = some (.str "src") ∧
      getPath defaultConfig ["build", "temp"] = some (.str "temp") ∧
      getPath defaultConfig ["build", "dist"] = some (.str "dist") ∧
      getPath defaultConfig ["build", "paths", "pages"] = some (.str "*.html") ∧
      clean defaultConfig =
        some { src := none, searchPath := [], dest := none, del := [.str "temp", .str "dist"] } ∧
      useref defaultConfig =
        some { src := some { glob := .str "*.html", cwd := .str "temp", base := .str "temp" },
               searchPath := [.str "temp", .str "."], dest := some (.str "dist"), del := [] } :=
  have h := task_calls defaultConfig (.str "src") (.str "dist") (.str "temp") (.str "public")
    (.str "assets/styles/*.scss") (.str "assets/scripts/*.js") (.str "*.html")
    (.str "assets/images/**") (.str "assets/fonts/**") rfl rfl rfl rfl rfl rfl rfl rfl rfl
  ⟨rfl, rfl, rfl, rfl, h.1, h.2.2.2.2.1⟩

/-! ## Commit text and push -/

theorem itemTexts_of_forall₂ (items : List JSVal) (texts : List String)
    (h : List.Forall₂ (fun v t => itemText v = .ok t) items texts) :
    itemTexts items = .ok texts := by
  induction h with
  | nil => rfl
  | @cons v t vs ts hv _ ih =>
    cases v <;> simp_all [itemTexts, itemText]

/-- C7, as stated, fails: for the command line `--message.toString x` the
parser leaves `argv.message` an object whose own `toString` is an array (the
inherited function and `'x'`); it is truthy, the template literal throws a
`TypeError`, and no `args` string reaches `git commit`. -/
theorem gitCommit_throws_on_unprintable_message :
    truthy (.obj [("toString",
        .arr [.fn "function toString() \x7b [native code] \x7d", .str "x"])]) = true ∧
      gitCommit [("_", .arr []), ("message", .obj [("toString",
        .arr [.fn "function toString() \x7b [native code] \x7d", .str "x"])])] =
        .error .typeError :=
  ⟨rfl, rfl⟩

/-- C7, amended: `gitCommit` takes `argv.message` as the message when it is
truthy and `'update'` when it is absent or falsy (`undefined`, `null`,
`false`, the empty string, `0`); when the message converts to a string,
`args` is exactly `-m "`, that string, `"`, and the string is the text of a
string, number, boolean or function, the comma-joined element texts of an
array, and `[object Object]` for an object without an own `toString`; when
the conversion throws, as for an object whose own `toString` is not callable,
`gitCommit` throws. -/
theorem gitCommit_message (argv : List (String × JSVal)) (m : JSVal)
    (hm : (lookupProp "message" argv).getD .undefined = m) :
    (truthy m = false →
      gitCommit argv = .ok { message := .str "update", args := "-m \"update\"",
                             disableMessageRequirement := true }) ∧
    (∀ s, truthy m = true → jsToString m = .ok s →
      gitCommit argv = .ok { message := m, args := "-m \"" ++ s ++ "\"",
                             disableMessageRequirement := true }) ∧
    (∀ e, truthy m = true → jsToString m = .error e → gitCommit argv = .error e) ∧
    (truthy m = false ↔
      m = .undefined ∨ m = .null ∨ m = .bool false ∨ m = .str "" ∨ ∃ t, m = .num true t) ∧
    (∀ s, jsToString (.str s) = .ok s) ∧
    (∀ z t, jsToString (.num z t) = .ok t) ∧
    jsToString (.bool true) = .ok "true" ∧
    jsToString (.bool false) = .ok "false" ∧
    (∀ t, jsToString (.fn t) = .ok t) ∧
    (∀ items texts, List.Forall₂ (fun v t => itemText v = .ok t) items texts →
      jsToString (.arr items) = .ok (",".intercalate texts)) ∧
    (∀ props, lookupProp "toString" props = none →
      jsToString (.obj props) = .ok "[object Object]") ∧
    (∀ props v, lookupProp "toString" props = some v → isFn v = false →
      (∀ w, lookupProp "valueOf" props = some w → isFn w = false) →
      jsToString (.obj props) = .error .typeError) := by
  subst hm
  refine ⟨?_, ?_, ?_, ?_, ?_, ?_, ?_, ?_, ?_, ?_, ?_, ?_⟩
  · intro hf
    simp [gitCommit, hf, jsToString]
  · intro s ht hs
    simp [gitCommit, ht, hs]
  · intro e ht he
    simp [gitCommit, ht, he]
  · cases (lookupProp "message" argv).getD .undefined with
    | bool b => cases b <;> simp [truthy]
    | num z t => cases z <;> simp [truthy]
    | _ => simp [truthy]
  · intro s
    rfl
  · intro z t
    rfl
  · rfl
  · rfl
  · intro t
    rfl
  · intro items texts hall
    simp [jsToString, itemTexts_of_forall₂ items texts hall]
  · intro props hn
    simp [jsToString, hn]
  · intro props v hv hnf hval
    cases v with
    | fn t => simp [isFn] at hnf
    | _ =>
      simp only [jsToString, hv]
      cases hw : lookupProp "valueOf" props with
      | none => rfl
      | some w =>
        have := hval w hw
        cases w with
        | fn t => simp [isFn] at this
        | _ => rfl

theorem gitCommit_message_witness :
    (lookupProp "message" [("_", .arr []), ("message", .str "fix nav")]).getD .undefined =
        .str "fix nav" ∧
      truthy (.str "fix nav") = true ∧ jsToString (.str "fix nav") = .ok "fix nav" ∧
      gitCommit [("_", .arr []), ("message", .str "fix nav")] =
        .ok { message := .str "fix nav", args := "-m \"fix nav\"",
              disableMessageRequirement := true } :=
  ⟨rfl, rfl, rfl,
    (gitCommit_message [("_", .arr []), ("message", .str "fix nav")] (.str "fix nav")
      rfl).2.1 "fix nav" rfl rfl⟩

/-- C8: when the push reports an error, the callback throws that very value,
nothing else is thrown and the push is started once; when it reports none,
or has not reported, nothing is thrown. -/
theorem gitPush_reraises (err : JSVal) :
    (truthy err = true →
      pushCallback err = .error err ∧ raised (gitPush (some err)) = [err] ∧
        pushes (gitPush (some err)) = [("origin", "master")]) ∧
    (truthy err = false →
      pushCallback err = .ok () ∧ raised (gitPush (some err)) = [] ∧
        pushes (gitPush (some err)) = [("origin", "master")]) ∧
    raised (gitPush none) = [] := by
  refine ⟨?_, ?_, rfl⟩
  · intro h
    simp [gitPush, pushCallback, h, raised, pushes]
  · intro h
    simp [gitPush, pushCallback, h, raised, pushes]

theorem gitPush_reraises_witness :
    truthy (.obj [("message", .str "rejected")]) = true ∧
      raised (gitPush (some (.obj [("message", .str "rejected")]))) =
        [.obj [("message", .str "rejected")]] :=
  ⟨rfl, ((gitPush_reraises (.obj [("message", .str "rejected")])).1 rfl).2.1⟩

/-- C10: whether the push has failed, succeeded or not reported, `gitPush`
calls `done` exactly once, without arguments, right after starting the push
and before anything the callback does; `gitPush` is the last task of
`update`. -/
theorem gitPush_done_once (reported : Option JSVal) :
    doneCalls (gitPush reported) = [[]] ∧
      (∃ rest, gitPush reported = [.push "origin" "master", .done []] ++ rest ∧
        doneCalls rest = [] ∧ pushes rest = []) ∧
      traces update = [[Event.start Task.gitAdd, Event.finish Task.gitAdd,
        Event.start Task.gitCommit, Event.finish Task.gitCommit,
        Event.start Task.gitPush, Event.finish Task.gitPush]] := by
  refine ⟨?_, ?_, by decide⟩
  · cases reported with
    | none => rfl
    | some err =>
      cases h : truthy err <;> simp [gitPush, pushCallback, h, doneCalls]
  · cases reported with
    | none => exact ⟨[], rfl, rfl, rfl⟩
    | some err =>
      cases h : truthy err
      · exact ⟨[], by simp [gitPush, pushCallback, h], rfl, rfl⟩
      · exact ⟨[.raise err], by simp [gitPush, pushCallback, h], rfl, rfl⟩

/-! ## Task graphs: runs -/

theorem interleave_cons_cons {α : Type} (x : α) (xs : List α) (y : α) (ys : List α) :
    interleave (x :: xs) (y :: ys) =
      (interleave xs (y :: ys)).map (fun zs => x :: zs) ++
        (interleave (x :: xs) ys).map (fun zs => y :: zs) := rfl

theorem interleave_cons_nil {α : Type} (x : α) (xs : List α) :
    interleave (x :: xs) [] = [x :: xs] := rfl

theorem interleave_nil_left {α : Type} (ys : List α) : interleave [] ys = [ys] := rfl

/-- A merge contains both lists in their order and nothing else. -/
theorem interleave_spec {α : Type} :
    ∀ (xs ys zs : List α), zs ∈ interleave xs ys →
      xs.Sublist zs ∧ ys.Sublist zs ∧ zs.Perm (xs ++ ys) := by
  intro xs
  induction xs with
  | nil =>
    intro ys zs h
    rw [interleave_nil_left, List.mem_singleton] at h
    subst h
    exact ⟨List.nil_sublist _, List.Sublist.refl _, List.Perm.refl _⟩
  | cons x xs ihx =>
    intro ys
    induction ys with
    | nil =>
      intro zs h
      rw [interleave_cons_nil, List.mem_singleton] at h
      subst h
      exact ⟨List.Sublist.refl _, List.nil_sublist _, by simp⟩
    | cons y ys ihy =>
      intro zs h
      rw [interleave_cons_cons, List.mem_append, List.mem_map, List.mem_map] at h
      rcases h with ⟨zs', hz, rfl⟩ | ⟨zs', hz, rfl⟩
      · obtain ⟨h1, h2, h3⟩ := ihx (y :: ys) zs' hz
        exact ⟨h1.cons₂ x, h2.cons x, h3.cons x⟩
      · obtain ⟨h1, h2, h3⟩ := ihy zs' hz
        refine ⟨h1.cons y, h2.cons₂ y, ?_⟩
        exact (h3.cons y).trans (@List.perm_middle _ y (x :: xs) ys).symm

/-- Running the first list to its end and then the second is a merge. -/
theorem append_mem_interleave {α : Type} (xs ys : List α) : xs ++ ys ∈ interleave xs ys := by
  induction xs with
  | nil => simp [interleave_nil_left]
  | cons x xs ih =>
    cases ys with
    | nil => simp [interleave_cons_nil]
    | cons y ys =>
      rw [interleave_cons_cons, List.mem_append]
      exact Or.inl (List.mem_map.mpr ⟨_, ih, rfl⟩)

theorem interleave_nil_right {α : Type} (xs : List α) : interleave xs [] = [xs] := by
  cases xs <;> rfl

/-- A merge may take its next event from the first list. -/
theorem mem_interleave_left {α : Type} (x : α) {xs ys zs : List α}
    (h : zs ∈ interleave xs ys) : x :: zs ∈ interleave (x :: xs) ys := by
  cases ys with
  | nil =>
    rw [interleave_nil_right, List.mem_singleton] at h
    subst h
    simp [interleave_cons_nil]
  | cons y ys =>
    rw [interleave_cons_cons, List.mem_append]
    exact Or.inl (List.mem_map.mpr ⟨_, h, rfl⟩)

/-- A merge may take its next event from the second list. -/
theorem mem_interleave_right {α : Type} (y : α) {xs ys zs : List α}
    (h : zs ∈ interleave xs ys) : y :: zs ∈ interleave xs (y :: ys) := by
  cases xs with
  | nil =>
    rw [interleave_nil_left, List.mem_singleton] at h
    subst h
    simp [interleave_nil_left]
  | cons x xs =>
    rw [interleave_cons_cons, List.mem_append]
    exact Or.inr (List.mem_map.mpr ⟨_, h, rfl⟩)

theorem mem_tracesSeries_cons (g : Graph) (gs : List Graph) (tr : List Event) :
    tr ∈ tracesSeries (g :: gs) ↔
      ∃ x, x ∈ traces g ∧ ∃ y, y ∈ tracesSeries gs ∧ tr = x ++ y := by
  simp only [tracesSeries, List.mem_flatMap, List.mem_map]
  constructor
  · rintro ⟨x, hx, y, hy, rfl⟩
    exact ⟨x, hx, y, hy, rfl⟩
  · rintro ⟨x, hx, y, hy, rfl⟩
    exact ⟨x, hx, y, hy, rfl⟩

theorem mem_tracesParallel_cons (g : Graph) (gs : List Graph) (tr : List Event) :
    tr ∈ tracesParallel (g :: gs) ↔
      ∃ x, x ∈ traces g ∧ ∃ y, y ∈ tracesParallel gs ∧ tr ∈ interleave x y := by
  simp only [tracesParallel, List.mem_flatMap]

mutual
/-- Every run of a graph is a rearrangement of its events. -/
theorem traces_perm : ∀ (g : Graph) (tr : List Event), tr ∈ traces g → tr.Perm (events g)
  | .task t, tr, h => by
    simp only [traces, List.mem_singleton] at h
    subst h
    exact List.Perm.refl _
  | .series gs, tr, h => by
    simp only [traces] at h
    simpa only [events] using tracesSeries_perm gs tr h
  | .parallel gs, tr, h => by
    simp only [traces] at h
    simpa only [events] using tracesParallel_perm gs tr h
theorem tracesSeries_perm :
    ∀ (gs : List Graph) (tr : List Event), tr ∈ tracesSeries gs → tr.Perm (eventsAll gs)
  | [], tr, h => by
    simp only [tracesSeries, List.mem_singleton] at h
    subst h
    exact List.Perm.refl _
  | g :: gs, tr, h => by
    obtain ⟨x, hx, y, hy, rfl⟩ := (mem_tracesSeries_cons g gs tr).mp h
    simpa only [eventsAll] using (traces_perm g x hx).append (tracesSeries_perm gs y hy)
theorem tracesParallel_perm :
    ∀ (gs : List Graph) (tr : List Event), tr ∈ tracesParallel gs → tr.Perm (eventsAll gs)
  | [], tr, h => by
    simp only [tracesParallel, List.mem_singleton] at h
    subst h
    exact List.Perm.refl _
  | g :: gs, tr, h => by
    obtain ⟨x, hx, y, hy, hi⟩ := (mem_tracesParallel_cons g gs tr).mp h
    have h3 := (interleave_spec x y tr hi).2.2
    simpa only [eventsAll] using
      h3.trans ((traces_perm g x hx).append (tracesParallel_perm gs y hy))
end

mutual
/-- The events of a graph in their fixed order are one of its runs. -/
theorem events_mem_traces : ∀ (g : Graph), events g ∈ traces g
  | .task t => by simp [traces, events]
  | .series gs => by
    simpa only [traces, events] using eventsAll_mem_tracesSeries gs
  | .parallel gs => by
    simpa only [traces, events] using eventsAll_mem_tracesParallel gs
theorem eventsAll_mem_tracesSeries : ∀ (gs : List Graph), eventsAll gs ∈ tracesSeries gs
  | [] => by simp [tracesSeries, eventsAll]
  | g :: gs =>
    (mem_tracesSeries_cons g gs _).mpr
      ⟨_, events_mem_traces g, _, eventsAll_mem_tracesSeries gs, by simp only [eventsAll]⟩
theorem eventsAll_mem_tracesParallel : ∀ (gs : List Graph), eventsAll gs ∈ tracesParallel gs
  | [] => by simp [tracesParallel, eventsAll]
  | g :: gs =>
    (mem_tracesParallel_cons g gs _).mpr
      ⟨_, events_mem_traces g, _, eventsAll_mem_tracesParallel gs, by
        simpa only [eventsAll] using append_mem_interleave (events g) (eventsAll gs)⟩
end

theorem pair_sublist_append {e1 e2 : Event} {x y : List Event}
    (h1 : e1 ∈ x) (h2 : e2 ∈ y) : [e1, e2].Sublist (x ++ y) := by
  have a := List.singleton_sublist.mpr h1
  have b := List.singleton_sublist.mpr h2
  simpa using a.append b

mutual
/-- The check `ordered` is sound: what it accepts holds in every run. -/
theorem ordered_sound (e1 e2 : Event) :
    ∀ (g : Graph), ordered e1 e2 g = true → ∀ tr, tr ∈ traces g → [e1, e2].Sublist tr
  | .task t, h, tr, htr => by
    simp only [traces, List.mem_singleton] at htr
    simp only [ordered, Bool.and_eq_true, decide_eq_true_eq] at h
    obtain ⟨rfl, rfl⟩ := h
    subst htr
    exact List.Sublist.refl _
  | .series gs, h, tr, htr => by
    simp only [traces] at htr
    simp only [ordered] at h
    exact orderedSeries_sound e1 e2 gs h tr htr
  | .parallel gs, h, tr, htr => by
    simp only [traces] at htr
    simp only [ordered] at h
    exact orderedParallel_sound e1 e2 gs h tr htr
theorem orderedSeries_sound (e1 e2 : Event) :
    ∀ (gs : List Graph), orderedSeries e1 e2 gs = true →
      ∀ tr, tr ∈ tracesSeries gs → [e1, e2].Sublist tr
  | [], h, _, _ => by simp [orderedSeries] at h
  | g :: gs, h, tr, htr => by
    obtain ⟨x, hx, y, hy, rfl⟩ := (mem_tracesSeries_cons g gs tr).mp htr
    simp only [orderedSeries, Bool.or_eq_true, Bool.and_eq_true, decide_eq_true_eq] at h
    rcases h with (h | ⟨h1, h2⟩) | h
    · exact (ordered_sound e1 e2 g h x hx).trans (List.sublist_append_left x y)
    · exact pair_sublist_append ((traces_perm g x hx).mem_iff.mpr h1)
        ((tracesSeries_perm gs y hy).mem_iff.mpr h2)
    · exact (orderedSeries_sound e1 e2 gs h y hy).trans (List.sublist_append_right x y)
theorem orderedParallel_sound (e1 e2 : Event) :
    ∀ (gs : List Graph), orderedParallel e1 e2 gs = true →
      ∀ tr, tr ∈ tracesParallel gs → [e1, e2].Sublist tr
  | [], h, _, _ => by simp [orderedParallel] at h
  | g :: gs, h, tr, htr => by
    obtain ⟨x, hx, y, hy, hi⟩ := (mem_tracesParallel_cons g gs tr).mp htr
    obtain ⟨s1, s2, _⟩ := interleave_spec x y tr hi
    simp only [orderedParallel, Bool.or_eq_true] at h
    rcases h with h | h
    · exact (ordered_sound e1 e2 g h x hx).trans s1
    · exact (orderedParallel_sound e1 e2 gs h y hy).trans s2
end

/-- In a run without repeated events, `e1` listed before `e2` means that
the finish is among the events before the start. -/
theorem startsOnlyAfter_of_sublist (a b : Task) :
    ∀ (pre post : List Event), (pre ++ Event.start b :: post).Nodup →
      [Event.finish a, Event.start b].Sublist (pre ++ Event.start b :: post) →
      Event.finish a ∈ pre := by
  intro pre
  induction pre with
  | nil =>
    intro post hn hs
    simp only [List.nil_append] at hn hs
    rw [List.nodup_cons] at hn
    cases hs with
    | cons _ h => exact absurd (h.subset (by simp)) hn.1
  | cons q pre ih =>
    intro post hn hs
    simp only [List.cons_append] at hn hs
    rw [List.nodup_cons] at hn
    cases hs with
    | cons _ h => exact List.mem_cons_of_mem _ (ih post hn.2 h)
    | cons₂ _ h => exact List.mem_cons_self _ _

theorem startsOnlyAfter_of_ordered (g : Graph) (a b : Task)
    (hn : (events g).Nodup) (ho : ordered (Event.finish a) (Event.start b) g = true)
    (tr : List Event) (htr : tr ∈ traces g) (p : List Event) (hp : p <+: tr) :
    StartsOnlyAfter a b p := by
  obtain ⟨r, rfl⟩ := hp
  intro pre post h
  have hs := ordered_sound _ _ g ho _ htr
  have hnd : (p ++ r).Nodup := (traces_perm g _ htr).nodup_iff.mpr hn
  rw [h, List.append_assoc, List.cons_append] at hs hnd
  exact startsOnlyAfter_of_sublist a b pre (post ++ r) hnd hs

theorem mem_of_mem_events (g : Graph) (e : Event) (he : e ∈ events g)
    (tr : List Event) (htr : tr ∈ traces g) : e ∈ tr :=
  (traces_perm g tr htr).mem_iff.mpr he

theorem count_of_traces (g : Graph) (e : Event) (tr : List Event) (htr : tr ∈ traces g) :
    tr.count e = (events g).count e :=
  (traces_perm g tr htr).count_eq e

/-! ## Task graphs: the order of the build -/

/-- C3: every run of `build` begins with the start and the finish of `clean`,
and at every moment of the run each of style, script, page, useref, image,
font and extra has started (and so written to temp or dist) only after
`clean` has finished; each of them does start in the run. -/
theorem build_clean_finishes_first (tr : List Event) (htr : tr ∈ traces build)
    (p : List Event) (hp : p <+: tr) (t : Task) (ht : t ∈ buildTasks) (hne : t ≠ Task.clean) :
    [Event.start Task.clean, Event.finish Task.clean] <+: tr ∧
      StartsOnlyAfter Task.clean t p ∧ Event.start t ∈ tr := by
  refine ⟨?_, ?_, ?_⟩
  · obtain ⟨x, hx, y, _, rfl⟩ := (mem_tracesSeries_cons _ _ tr).mp htr
    simp only [traces, List.mem_singleton] at hx
    subst hx
    exact List.prefix_append _ _
  · simp only [buildTasks, List.mem_cons, List.mem_singleton, List.not_mem_nil, or_false] at ht
    rcases ht with rfl | rfl | rfl | rfl | rfl | rfl | rfl | rfl
    · exact absurd rfl hne
    all_goals exact startsOnlyAfter_of_ordered build _ _ (by decide) (by decide) tr htr p hp
  · simp only [buildTasks, List.mem_cons, List.mem_singleton, List.not_mem_nil, or_false] at ht
    rcases ht with rfl | rfl | rfl | rfl | rfl | rfl | rfl | rfl
    all_goals exact mem_of_mem_events build _ (by decide) tr htr

theorem build_clean_finishes_first_witness :
    events build ∈ traces build ∧
      [Event.start Task.clean, Event.finish Task.clean, Event.start Task.style] <+: events build ∧
      Task.style ∈ buildTasks ∧ Task.style ≠ Task.clean ∧
      ([Event.start Task.clean, Event.finish Task.clean] <+: events build ∧
        StartsOnlyAfter Task.clean Task.style
          [Event.start Task.clean, Event.finish Task.clean, Event.start Task.style] ∧
        Event.start Task.style ∈ events build) :=
  ⟨events_mem_traces build, by decide, by decide, by decide,
    build_clean_finishes_first (events build) (events_mem_traces build)
      [Event.start Task.clean, Event.finish Task.clean, Event.start Task.style]
      (by decide) Task.style (by decide) (by decide)⟩

/-- C4: in every run of `build`, `start` or `deploy`, at every moment of the
run, `useref` has started only after each of the compile tasks style, script
and page has finished, whatever their order; `useref` does start in the run. -/
theorem useref_after_compile (g : Graph) (hg : g = build ∨ g = start ∨ g = deploy)
    (tr : List Event) (htr : tr ∈ traces g) (p : List Event) (hp : p <+: tr)
    (c : Task) (hc : c = Task.style ∨ c = Task.script ∨ c = Task.page) :
    StartsOnlyAfter c Task.useref p ∧ Event.start Task.useref ∈ tr := by
  rcases hg with rfl | rfl | rfl <;> rcases hc with rfl | rfl | rfl <;>
    exact ⟨startsOnlyAfter_of_ordered _ _ _ (by decide) (by decide) tr htr p hp,
      mem_of_mem_events _ _ (by decide) tr htr⟩

theorem useref_after_compile_witness :
    (deploy = build ∨ deploy = start ∨ deploy = deploy) ∧
      events deploy ∈ traces deploy ∧ events deploy <+: events deploy ∧
      (Task.page = Task.style ∨ Task.page = Task.script ∨ Task.page = Task.page) ∧
      (StartsOnlyAfter Task.page Task.useref (events deploy) ∧
        Event.start Task.useref ∈ events deploy) :=
  ⟨Or.inr (Or.inr rfl), events_mem_traces deploy, List.prefix_refl _, Or.inr (Or.inr rfl),
    useref_after_compile deploy (Or.inr (Or.inr rfl)) (events deploy) (events_mem_traces deploy)
      (events deploy) (List.prefix_refl _) Task.page (Or.inr (Or.inr rfl))⟩

/-- C5, as stated, fails: `build` has a run in which image, font and extra
start together with the compile tasks, before `useref` has started, let alone
finished. -/
theorem build_assets_before_useref :
    [Event.start Task.clean, Event.finish Task.clean,
      Event.start Task.style, Event.start Task.script, Event.start Task.page,
      Event.start Task.image, Event.start Task.font, Event.start Task.extra,
      Event.finish Task.style, Event.finish Task.script, Event.finish Task.page,
      Event.start Task.useref,
      Event.finish Task.image, Event.finish Task.font, Event.finish Task.extra,
      Event.finish Task.useref] ∈ traces build ∧
    ¬ (∀ tr, tr ∈ traces build → ∀ t, t = Task.image ∨ t = Task.font ∨ t = Task.extra →
        StartsOnlyAfter Task.useref t tr) := by
  have hmain : [Event.start Task.style, Event.start Task.script, Event.start Task.page,
      Event.finish Task.style, Event.finish Task.script, Event.finish Task.page,
      Event.start Task.useref, Event.finish Task.useref] ∈
        traces (Graph.series [compile, Graph.task Task.useref]) := by decide
  have hassets : [Event.start Task.image, Event.start Task.font, Event.start Task.extra,
      Event.finish Task.image, Event.finish Task.font, Event.finish Task.extra] ∈
        tracesParallel [Graph.task Task.image, Graph.task Task.font, Graph.task Task.extra] := by
    decide
  have hmem : [Event.start Task.clean, Event.finish Task.clean,
      Event.start Task.style, Event.start Task.script, Event.start Task.page,
      Event.start Task.image, Event.start Task.font, Event.start Task.extra,
      Event.finish Task.style, Event.finish Task.script, Event.finish Task.page,
      Event.start Task.useref,
      Event.finish Task.image, Event.finish Task.font, Event.finish Task.extra,
      Event.finish Task.useref] ∈ traces build := by
    refine (mem_tracesSeries_cons _ _ _).mpr
      ⟨[Event.start Task.clean, Event.finish Task.clean], by simp [traces], _, ?_, rfl⟩
    refine (mem_tracesSeries_cons _ _ _).mpr
      ⟨_, ?_, [], by simp [tracesSeries], (List.append_nil _).symm⟩
    refine (mem_tracesParallel_cons _ _ _).mpr ⟨_, hmain, _, hassets, ?_⟩
    refine mem_interleave_left _ (mem_interleave_left _ (mem_interleave_left _ ?_))
    refine mem_interleave_right _ (mem_interleave_right _ (mem_interleave_right _ ?_))
    refine mem_interleave_left _ (mem_interleave_left _ (mem_interleave_left _ ?_))
    refine mem_interleave_left _ ?_
    refine mem_interleave_right _ (mem_interleave_right _ (mem_interleave_right _ ?_))
    exact mem_interleave_left _ (List.mem_singleton.mpr rfl)
  refine ⟨hmem, fun h => ?_⟩
  have h1 := h _ hmem Task.image (Or.inl rfl)
    [Event.start Task.clean, Event.finish Task.clean,
      Event.start Task.style, Event.start Task.script, Event.start Task.page] _ rfl
  revert h1
  decide

/-- C5, amended: in every run of `build`, at every moment of the run, image,
font and extra have started only after `clean` has finished, and `useref` only
after `clean` and each of style, script and page has finished; nothing is
said about the order of the three asset tasks against the compile tasks or
`useref`. -/
theorem build_pipeline_order (tr : List Event) (htr : tr ∈ traces build)
    (p : List Event) (hp : p <+: tr) :
    (∀ t, t = Task.image ∨ t = Task.font ∨ t = Task.extra → StartsOnlyAfter Task.clean t p) ∧
    (∀ c, c = Task.style ∨ c = Task.script ∨ c = Task.page →
      StartsOnlyAfter Task.clean c p ∧ StartsOnlyAfter c Task.useref p) ∧
    StartsOnlyAfter Task.clean Task.useref p := by
  refine ⟨?_, ?_, ?_⟩
  · rintro t (rfl | rfl | rfl) <;>
      exact startsOnlyAfter_of_ordered build _ _ (by decide) (by decide) tr htr p hp
  · rintro c (rfl | rfl | rfl) <;>
      exact ⟨startsOnlyAfter_of_ordered build _ _ (by decide) (by decide) tr htr p hp,
        startsOnlyAfter_of_ordered build _ _ (by decide) (by decide) tr htr p hp⟩
  · exact startsOnlyAfter_of_ordered build _ _ (by decide) (by decide) tr htr p hp

theorem build_pipeline_order_witness :
    events build ∈ traces build ∧ events build <+: events build ∧
      ((∀ t, t = Task.image ∨ t = Task.font ∨ t = Task.extra →
          StartsOnlyAfter Task.clean t (events build)) ∧
        (∀ c, c = Task.style ∨ c = Task.script ∨ c = Task.page →
          StartsOnlyAfter Task.clean c (events build) ∧
            StartsOnlyAfter c Task.useref (events build)) ∧
        StartsOnlyAfter Task.clean Task.useref (events build)) :=
  ⟨events_mem_traces build, List.prefix_refl _,
    build_pipeline_order (events build) (events_mem_traces build) (events build)
      (List.prefix_refl _)⟩

/-- C6: in every run of `deploy` (final step `upload`) and of `start` (final
step `distServer`), each of the eight tasks of `build` starts exactly once and
finishes exactly once, the final step does start, and at every point of the
run the final step has started only after that task has finished. -/
theorem final_step_after_build (g : Graph) (final : Task)
    (hg : (g = deploy ∧ final = Task.upload) ∨ (g = start ∧ final = Task.distServer))
    (tr : List Event) (htr : tr ∈ traces g) (p : List Event) (hp : p <+: tr)
    (t : Task) (ht : t ∈ buildTasks) :
    tr.count (Event.start t) = 1 ∧ tr.count (Event.finish t) = 1 ∧
      tr.count (Event.start final) = 1 ∧ StartsOnlyAfter t final p := by
  simp only [buildTasks, List.mem_cons, List.mem_singleton, List.not_mem_nil, or_false] at ht
  rcases hg with ⟨rfl, rfl⟩ | ⟨rfl, rfl⟩ <;>
    rcases ht with rfl | rfl | rfl | rfl | rfl | rfl | rfl | rfl <;>
    exact ⟨(count_of_traces _ _ tr htr).trans (by decide),
      (count_of_traces _ _ tr htr).trans (by decide),
      (count_of_traces _ _ tr htr).trans (by decide),
      startsOnlyAfter_of_ordered _ _ _ (by decide) (by decide) tr htr p hp⟩

theorem final_step_after_build_witness :
    ((start = deploy ∧ Task.distServer = Task.upload) ∨
        (start = start ∧ Task.distServer = Task.distServer)) ∧
      events start ∈ traces start ∧ events start <+: events start ∧
      Task.extra ∈ buildTasks ∧
      ((events start).count (Event.start Task.extra) = 1 ∧
        (events start).count (Event.finish Task.extra) = 1 ∧
        (events start).count (Event.start Task.distServer) = 1 ∧
        StartsOnlyAfter Task.extra Task.distServer (events start)) :=
  ⟨Or.inr ⟨rfl, rfl⟩, events_mem_traces start, List.prefix_refl _, by decide,
    final_step_after_build start Task.distServer (Or.inr ⟨rfl, rfl⟩) (events start)
      (events_mem_traces start) (events start) (List.prefix_refl _) Task.extra (by decide)⟩

end Pages
